import Mathlib

/-!
Verification of the virtual-filesystem core of the local-note-taker
repository: folder registry rehydration, path resolution, lazy tree
building, glob / grep search and the read / write / edit tools.

JS strings are modelled as `List Char` (sequences of code units); the
platform filesystem handles are modelled as an inductive tree of entries,
and the asynchronous directory enumeration is modelled as the order of the
entry list, which all theorems quantify over.
-/

namespace NoteTaker

/-! ## JS string primitives over `List Char` -/

/-- JS `str.split("\n")`: splits a string at every newline; the result is
always non-empty, and a trailing newline yields a trailing empty line. -/
def splitNl : List Char → List (List Char)
  | [] => [[]]
  | c :: rest =>
    if c = '\n' then [] :: splitNl rest
    else
      match splitNl rest with
      | [] => [[c]]
      | l :: ls => (c :: l) :: ls

/-- JS `lines.join("\n")`. -/
def joinNl : List (List Char) → List Char
  | [] => []
  | [l] => l
  | l :: l2 :: ls => l ++ '\n' :: joinNl (l2 :: ls)

theorem splitNl_ne_nil (s : List Char) : splitNl s ≠ [] := by
  cases s with
  | nil => simp [splitNl]
  | cons c rest =>
    simp only [splitNl]
    split
    · simp
    · split <;> simp

theorem joinNl_splitNl (s : List Char) : joinNl (splitNl s) = s := by
  induction s with
  | nil => rfl
  | cons c rest ih =>
    simp only [splitNl]
    split
    · rename_i hc
      subst hc
      rcases h : splitNl rest with _ | ⟨l, ls⟩
      · exact absurd h (splitNl_ne_nil rest)
      · rw [h] at ih
        simp only [joinNl, List.nil_append]
        rw [ih]
    · rcases h : splitNl rest with _ | ⟨l, ls⟩
      · exact absurd h (splitNl_ne_nil rest)
      · rw [h] at ih
        cases ls with
        | nil => simp only [joinNl] at ih ⊢; rw [ih]
        | cons l2 ls2 => simp only [joinNl] at ih ⊢; rw [List.cons_append, ih]

theorem not_mem_splitNl (s : List Char) : ∀ l ∈ splitNl s, '\n' ∉ l := by
  induction s with
  | nil => intro l hl; simp [splitNl] at hl; simp [hl]
  | cons c rest ih =>
    intro l hl
    simp only [splitNl] at hl
    split at hl
    · rw [List.mem_cons] at hl
      rcases hl with h | h
      · simp [h]
      · exact ih l h
    · rename_i hc
      rcases h : splitNl rest with _ | ⟨l0, ls⟩
      · exact absurd h (splitNl_ne_nil rest)
      · rw [h] at hl
        rw [List.mem_cons] at hl
        rcases hl with h1 | h1
        · subst h1
          intro hmem
          rcases List.mem_cons.mp hmem with h2 | h2
          · exact hc h2.symm
          · exact ih l0 (by rw [h]; exact List.mem_cons_self _ _) h2
        · exact ih l (by rw [h]; exact List.mem_cons_of_mem _ h1)

/-- Splitting a newline-free string yields just that string. -/
theorem splitNl_no_nl (l : List Char) (hl : '\n' ∉ l) : splitNl l = [l] := by
  induction l with
  | nil => rfl
  | cons c cs ihc =>
    have hc : ¬ c = '\n' := fun h => hl (h ▸ List.mem_cons_self _ _)
    have hcs : '\n' ∉ cs := fun hm => hl (List.mem_cons_of_mem _ hm)
    simp [splitNl, hc, ihc hcs]

/-- Splitting a string that starts with a newline-free line followed by a
newline peels off that line. -/
theorem splitNl_append_nl (l rest : List Char) (hl : '\n' ∉ l) :
    splitNl (l ++ '\n' :: rest) = l :: splitNl rest := by
  induction l with
  | nil => simp [splitNl]
  | cons c cs ihc =>
    have hc : ¬ c = '\n' := fun h => hl (h ▸ List.mem_cons_self _ _)
    have hcs : '\n' ∉ cs := fun hm => hl (List.mem_cons_of_mem _ hm)
    simp only [List.cons_append, splitNl, if_neg hc]
    rw [show cs.append ('\n' :: rest) = cs ++ '\n' :: rest from rfl, ihc hcs]

/-- If every line is newline-free and the line list is non-empty, splitting
the joined text recovers the lines. -/
theorem splitNl_joinNl (ls : List (List Char)) (hne : ls ≠ [])
    (h : ∀ l ∈ ls, '\n' ∉ l) : splitNl (joinNl ls) = ls := by
  induction ls with
  | nil => exact absurd rfl hne
  | cons l rest ih =>
    cases rest with
    | nil => exact splitNl_no_nl l (h l (List.mem_cons_self _ _))
    | cons l2 rest2 =>
      have hrest : splitNl (joinNl (l2 :: rest2)) = l2 :: rest2 :=
        ih (by simp) (fun x hx => h x (List.mem_cons_of_mem _ hx))
      simp only [joinNl]
      rw [splitNl_append_nl l _ (h l (List.mem_cons_self _ _)), hrest]

/-- The decimal digit characters used by JS number-to-string conversion. -/
def decChar : Nat → Char
  | 0 => '0'
  | 1 => '1'
  | 2 => '2'
  | 3 => '3'
  | 4 => '4'
  | 5 => '5'
  | 6 => '6'
  | 7 => '7'
  | 8 => '8'
  | 9 => '9'
  | _ => '0'

/-- Fuel-indexed digit expansion (the fuel only bounds the recursion
depth; `decDigits` supplies enough for any input). -/
def decDigitsAux : Nat → Nat → List Char
  | 0, _ => []
  | fuel + 1, n =>
    if n < 10 then [decChar n]
    else decDigitsAux fuel (n / 10) ++ [decChar (n % 10)]

/-- JS number-to-string for a natural number: decimal digits, most
significant first.  Models `${Date.now()}` and `(n).toString()`. -/
def decDigits (n : Nat) : List Char := decDigitsAux (n + 1) n

/-- Numeric value of a digit character, inverse of `decChar` on 0..9. -/
def digitVal : Char → Nat
  | '0' => 0
  | '1' => 1
  | '2' => 2
  | '3' => 3
  | '4' => 4
  | '5' => 5
  | '6' => 6
  | '7' => 7
  | '8' => 8
  | '9' => 9
  | _ => 0

/-- Reads a digit string back as a number. -/
def decVal (ds : List Char) : Nat :=
  ds.foldl (fun a c => 10 * a + digitVal c) 0

theorem digitVal_decChar {d : Nat} (h : d < 10) :
    digitVal (decChar d) = d := by
  match d, h with
  | 0, _ | 1, _ | 2, _ | 3, _ | 4, _ => rfl
  | 5, _ | 6, _ | 7, _ | 8, _ | 9, _ => rfl
  | n + 10, h => exact absurd h (by omega)

theorem decChar_ne_dash (d : Nat) : decChar d ≠ '-' := by
  unfold decChar
  split <;> decide

theorem decVal_shift (ds : List Char) (a : Nat) :
    ds.foldl (fun a c => 10 * a + digitVal c) a =
      a * 10 ^ ds.length + decVal ds := by
  induction ds generalizing a with
  | nil => simp [decVal]
  | cons c cs ih =>
    simp only [List.foldl_cons]
    rw [ih (10 * a + digitVal c)]
    have h2 : decVal (c :: cs) = digitVal c * 10 ^ cs.length + decVal cs := by
      simpa [decVal] using ih (digitVal c)
    rw [h2, List.length_cons]
    ring

theorem decVal_decDigitsAux : ∀ (fuel n : Nat), n < fuel →
    decVal (decDigitsAux fuel n) = n := by
  intro fuel
  induction fuel with
  | zero => intro n h; omega
  | succ fuel ih =>
    intro n h
    simp only [decDigitsAux]
    split
    · rename_i h10
      simp [decVal, digitVal_decChar h10]
    · rename_i h10
      have hd : n / 10 < fuel := by
        have := Nat.div_lt_self (show 0 < n by omega) (show 1 < 10 by omega)
        omega
      rw [decVal, List.foldl_append, ← decVal, ih (n / 10) hd]
      simp only [List.foldl_cons, List.foldl_nil]
      rw [digitVal_decChar (Nat.mod_lt _ (by omega))]
      omega

theorem decVal_decDigits (n : Nat) : decVal (decDigits n) = n :=
  decVal_decDigitsAux (n + 1) n (Nat.lt_succ_self n)

theorem decDigits_injective {m n : Nat} (h : decDigits m = decDigits n) :
    m = n := by
  rw [← decVal_decDigits m, ← decVal_decDigits n, h]

theorem decChar_isDigit (d : Nat) : (decChar d).isDigit = true := by
  unfold decChar
  split <;> decide

theorem decDigitsAux_isDigit : ∀ (fuel n : Nat), ∀ c ∈ decDigitsAux fuel n,
    c.isDigit = true := by
  intro fuel
  induction fuel with
  | zero => intro n c hc; simp [decDigitsAux] at hc
  | succ fuel ih =>
    intro n c hc
    simp only [decDigitsAux] at hc
    split at hc
    · simp at hc
      exact hc ▸ decChar_isDigit _
    · rcases List.mem_append.mp hc with h1 | h1
      · exact ih (n / 10) c h1
      · simp at h1
        exact h1 ▸ decChar_isDigit _

theorem decDigits_ne_dash (n : Nat) : ∀ c ∈ decDigits n, c ≠ '-' :=
  fun c hc he => by
    have hd := decDigitsAux_isDigit (n + 1) n c hc
    rw [he] at hd
    exact absurd hd (by decide)

/-- JS `str.padStart(6)`: left-pads with spaces up to length 6. -/
def padTo6 (ds : List Char) : List Char :=
  List.replicate (6 - ds.length) ' ' ++ ds

theorem padTo6_length (ds : List Char) :
    (padTo6 ds).length = max 6 ds.length := by
  simp [padTo6, Nat.sub_add_eq_max]

/-! ## Platform model: directory capability trees

A `FileSystemDirectoryHandle` is modelled as a list of child entries; the
order of the list is the (platform-defined) enumeration order of
`values()`, which every theorem quantifies over.  A file entry carries the
`File` metadata (`size`, `lastModified`) and its text content; content
`none` models a file whose `getFile()`/`text()` read fails or cannot be
decoded as text. -/

inductive Entry where
  | file (name : String) (size lastModified : Nat) (content : Option (List Char))
  | dir (name : String) (entries : List Entry)

def Entry.name : Entry → String
  | .file n _ _ _ => n
  | .dir n _ => n

/-- A tracked folder as held by the registry: generated id, display name
and the directory handle (its entry list). -/
structure TrackedFolder where
  id : String
  name : String
  entries : List Entry

/-- Platform child lookup by name, shared by the handle operations. -/
def lookupName (es : List Entry) (n : String) : Option Entry :=
  es.find? (fun e => e.name == n)

/-- Models `getDirectoryHandle(name)` without `create`: succeeds only when
the named child exists and is a directory. -/
def getDirEntry (es : List Entry) (n : String) : Option Entry :=
  match lookupName es n with
  | some (.dir m cs) => some (.dir m cs)
  | _ => none

/-- Models `getFileHandle(name)` without `create`: succeeds only when the
named child exists and is a file. -/
def getFileEntry (es : List Entry) (n : String) : Option Entry :=
  match lookupName es n with
  | some (.file m sz lm c) => some (.file m sz lm c)
  | _ => none

/-- Entry list of a directory-typed entry (for navigation). -/
def getDirEntries (es : List Entry) (n : String) : Option (List Entry) :=
  match lookupName es n with
  | some (.dir _ cs) => some cs
  | _ => none

/-! ## use-file-system hook (source part_000) -/

inductive NType where
  | file
  | dir
  deriving DecidableEq

/-- The `FileTreeNode` record of `types/file-system.ts`; `children`,
`expanded`, `size` and `lastModified` are optional fields. -/
inductive FTree where
  | node (name path : String) (type : NType) (children : Option (List FTree))
      (expanded : Option Bool) (size lastModified : Option Nat)

def FTree.name : FTree → String
  | .node n _ _ _ _ _ _ => n

def FTree.path : FTree → String
  | .node _ p _ _ _ _ _ => p

def FTree.type : FTree → NType
  | .node _ _ t _ _ _ _ => t

def FTree.children : FTree → Option (List FTree)
  | .node _ _ _ c _ _ _ => c

def FTree.expanded : FTree → Option Bool
  | .node _ _ _ _ e _ _ => e

/-- The sort comparator of `getFileTree` and `expandDirectory`:
directories before files, then `a.name.localeCompare(b.name)`.  The
platform `localeCompare` is a parameter `lc`. -/
def nodeCmp (lc : String → String → Int) (a b : FTree) : Int :=
  if a.type ≠ b.type then (if a.type = .dir then -1 else 1)
  else lc a.name b.name

/-- The non-strict order induced by the comparator (`comparator(a,b) <= 0`),
the relation a comparison sort sorts by. -/
def leNode (lc : String → String → Int) (a b : FTree) : Prop :=
  nodeCmp lc a b ≤ 0

instance (lc : String → String → Int) : DecidableRel (leNode lc) :=
  fun a b => inferInstanceAs (Decidable (nodeCmp lc a b ≤ 0))

/-- `children.sort(comparator)`: a comparison sort; modelled by insertion
sort, which is stable like `Array.prototype.sort`. -/
def sortChildren (lc : String → String → Int) (cs : List FTree) : List FTree :=
  List.insertionSort (leNode lc) cs

/-- The node built for one enumerated child entry: directories are pushed
unexpanded with `children: []`, files carry their metadata. -/
def childNode (basePath : String) : Entry → FTree
  | .dir n _ => .node n (basePath ++ "/" ++ n) .dir (some []) (some false) none none
  | .file n sz lm _ =>
      .node n (basePath ++ "/" ++ n) .file none none (some sz) (some lm)

/-- `getFileTree(folderId)`: finds the folder by id and builds the tree of
its direct children (subdirectories are left for lazy expansion), sorted,
under a synthetic root for the folder itself. -/
def getFileTree (lc : String → String → Int) (folders : List TrackedFolder)
    (folderId : String) : Option FTree :=
  match folders.find? (fun f => f.id == folderId) with
  | none => none
  | some f =>
      some (.node f.name ("/" ++ f.name) .dir
        (some (sortChildren lc (f.entries.map (childNode ("/" ++ f.name)))))
        (some true) none none)

/-- JS `str.split(sep)` for a one-character separator, over the character
list. -/
def splitOnChar (sep : Char) : List Char → List (List Char)
  | [] => [[]]
  | c :: rest =>
    if c = sep then [] :: splitOnChar sep rest
    else
      match splitOnChar sep rest with
      | [] => [[c]]
      | l :: ls => (c :: l) :: ls

/-- `path.split("/").filter(Boolean)`. -/
def splitPath (path : String) : List String :=
  ((splitOnChar '/' path.data).map String.mk).filter (fun s => s != "")

/-- Navigation loop `for (i...) currentDir = await currentDir.getDirectoryHandle(parts[i])`. -/
def navDirs : List Entry → List String → Option (List Entry)
  | es, [] => some es
  | es, s :: rest =>
    match getDirEntries es s with
    | some cs => navDirs cs rest
    | none => none

/-- `expandDirectory(path)`: resolves the folder by display name and the
remaining segments as directories, then returns the sorted direct
children; every failure is caught and yields `[]`. -/
def expandDirectory (lc : String → String → Int) (folders : List TrackedFolder)
    (path : String) : List FTree :=
  match splitPath path with
  | [] => []
  | folderName :: rest =>
    match folders.find? (fun f => f.name == folderName) with
    | none => []
    | some f =>
      match navDirs f.entries rest with
      | none => []
      | some es => sortChildren lc (es.map (childNode path))

/-- The resolution loop of `getHandleFromPath`: each segment is tried as a
directory child; on failure the last segment is retried as a file child;
a non-directory current handle skips the iteration. -/
def walkLoop (cur : Entry) (segs : List String) : Option Entry :=
  match cur, segs with
  | cur, [] => some cur
  | .dir _ cs, p :: rest =>
    match getDirEntry cs p with
    | some d => walkLoop d rest
    | none =>
      match rest with
      | [] => getFileEntry cs p
      | _ :: _ => none
  | .file n sz lm c, _ :: rest => walkLoop (.file n sz lm c) rest
  termination_by segs.length

/-- `getHandleFromPath(path)`: selects the folder by the first segment
(first match on display name) and walks the remaining segments. -/
def getHandleFromPath (folders : List TrackedFolder) (path : String) :
    Option Entry :=
  match splitPath path with
  | [] => none
  | folderName :: rest =>
    match folders.find? (fun f => f.name == folderName) with
    | none => none
    | some f => walkLoop (.dir f.name f.entries) rest

/-! ## Registry load (source part_000, `loadFolders`) -/

inductive Perm where
  | granted
  | denied
  | prompt
  deriving DecidableEq

inductive PermMode where
  | read
  | readwrite
  deriving DecidableEq

/-- A persisted capability handle: the optional `queryPermission` platform
operation returns, for a requested mode, the permission state; the result
`none` models a falsy result. -/
structure CapHandle where
  hname : String
  queryPermission : Option (PermMode → Option Perm)

structure FolderMetadata where
  id : String
  name : String
  addedAt : Nat

structure LoadedFolder where
  id : String
  name : String
  handle : CapHandle
  addedAt : Nat

/-- The invocation the source performs: it reads the platform method off
the handle into a local (`const queryPermission = (handle as
any).queryPermission;`) and then calls that local — `queryPermission({
mode: "readwrite" })` — without a receiver.  In a strict-mode module the
receiver of such a call is `undefined`, the WebIDL brand check of the
native file-system-handle operation fails, and the call throws `TypeError:
Illegal invocation` instead of returning a permission state.  The `qp`
argument (the state the operation would report when invoked on its
handle) is therefore never consulted. -/
def detachedQueryPermission (_qp : PermMode → Option Perm)
    (_m : PermMode) : Except String (Option Perm) :=
  .error "Illegal invocation"

/-- The `loadFolders` loop: for each metadata record, fetch the capability
from the store and drop the record silently when it is missing.  The
permission check mirrors the source's try/catch: when the capability
exposes `queryPermission`, the detached call throws, the catch comments
"assume we have access", and the record is kept; the branch dropping the
record on a present non-"granted" result is kept in the translation but —
as in the program — is dead code. -/
def loadFolders (metadata : List FolderMetadata)
    (store : String → Option CapHandle) : List LoadedFolder :=
  match metadata with
  | [] => []
  | meta :: rest =>
    match store meta.id with
    | none => loadFolders rest store
    | some h =>
      match h.queryPermission with
      | some qp =>
        match detachedQueryPermission qp .readwrite with
        | .ok (some p) =>
          if p ≠ .granted then loadFolders rest store
          else ⟨meta.id, meta.name, h, meta.addedAt⟩ :: loadFolders rest store
        | .ok none => ⟨meta.id, meta.name, h, meta.addedAt⟩ :: loadFolders rest store
        | .error _ => ⟨meta.id, meta.name, h, meta.addedAt⟩ :: loadFolders rest store
      | none => ⟨meta.id, meta.name, h, meta.addedAt⟩ :: loadFolders rest store

/-- The id generated by `addFolder`:
`folder-${Date.now()}-${Math.random().toString(36).substring(2, 9)}`.  The
timestamp and the random base-36 suffix are the two external draws. -/
def generateFolderId (now : Nat) (suffix : List Char) : List Char :=
  "folder-".data ++ decDigits now ++ '-' :: suffix

/-! ## Model of the platform default-locale `localeCompare` -/

/-- Lexicographic comparison of key sequences. -/
def lexCmpN : List Nat → List Nat → Int
  | [], [] => 0
  | [], _ :: _ => -1
  | _ :: _, [] => 1
  | a :: as, b :: bs =>
    if a < b then -1 else if b < a then 1 else lexCmpN as bs

/-- Secondary collation key: lowercase before uppercase on primary ties. -/
def lcKey (c : Char) : Nat :=
  2 * c.toLower.toNat + (if c.isUpper then 1 else 0)

/-- Modelled from the spec: `String.prototype.localeCompare` under the
browser default locale (ECMA-402 default collation, missing from the
repository as a platform primitive) compares letters primarily
case-insensitively — "a" sorts before "B" — and breaks primary ties with
lowercase before uppercase. -/
def localeCompare (a b : String) : Int :=
  match lexCmpN (a.data.map (fun c => c.toLower.toNat))
      (b.data.map (fun c => c.toLower.toNat)) with
  | 0 => lexCmpN (a.data.map lcKey) (b.data.map lcKey)
  | v => v

/-! ## File-system tools (source part_006) -/

/-- `parsePath`: splits the virtual path into folder name and relative
segments, throwing on an empty path. -/
def parsePath (path : String) : Except String (String × List String) :=
  match splitPath path with
  | [] => .error "Invalid path: empty path"
  | folderName :: rest => .ok (folderName, rest)

/-- The navigation of the tool-level `getFileHandle`: every segment but
the last as a directory, the last as a file; `none` on any failure. -/
def resolveFile : List Entry → List String → Option Entry
  | _, [] => none
  | es, [f] => getFileEntry es f
  | es, s :: rest =>
    match getDirEntries es s with
    | some cs => resolveFile cs rest
    | none => none

/-- Tool-level `getFileHandle(path)`: throws when the folder is unknown,
returns `none` when navigation fails. -/
def getFileHandleTool (folders : List TrackedFolder) (path : String) :
    Except String (Option Entry) :=
  match parsePath path with
  | .error e => .error e
  | .ok (folderName, rest) =>
    match folders.find? (fun f => f.name == folderName) with
    | none => .error ("Folder not found: " ++ folderName)
    | some f => .ok (resolveFile f.entries rest)

def imageExtensions : List String :=
  [".png", ".jpg", ".jpeg", ".gif", ".webp", ".bmp", ".svg", ".ico"]

/-- `isImageFile`: extension test on the lowercased filename (the
additional `image/` MIME test is derived from the same extension by the
browser and adds nothing for valid extensions). -/
def isImageName (filename : String) : Bool :=
  imageExtensions.any
    (fun ext => ext.data.isSuffixOf (filename.data.map Char.toLower))

/-- Line truncation of `readFile`: lines longer than 2000 characters are
cut and marked. -/
def truncLine (l : List Char) : List Char :=
  if l.length > 2000 then l.take 2000 ++ "...[truncated]".data else l

/-- The `cat -n`-style line formatting of `readFile`: 6-wide padded
1-based line number, an arrow, and the (possibly truncated) line. -/
def formatLines (startLine : Nat) : List (List Char) → List (List Char)
  | [] => []
  | l :: ls =>
    (padTo6 (decDigits (startLine + 1)) ++ '→' :: truncLine l)
      :: formatLines (startLine + 1) ls

structure ReadResult where
  content : Option (List Char)
  attachment : Option String
  lineCount : Option Nat
  deriving DecidableEq

/-- `readFile(path, offset, limit)` (defaults 0 and 2000): image files
come back as an attachment; text files are split into lines, windowed by
offset/limit, and formatted with line numbers.  The `offset` is a natural
number, absorbing the `Math.max(0, offset)` guard of the source. -/
def readFile (folders : List TrackedFolder) (path : String)
    (offset : Nat := 0) (limit : Nat := 2000) : Except String ReadResult :=
  match getFileHandleTool folders path with
  | .error e => .error e
  | .ok none => .error ("File not found: " ++ path)
  | .ok (some (.dir _ _)) => .error ("File not found: " ++ path)
  | .ok (some (.file fname _ _ content)) =>
    if isImageName fname then .ok ⟨none, some fname, none⟩
    else
      match content with
      | none => .error "read failure"
      | some txt =>
        let lines := splitNl txt
        let startLine := offset
        let endLine := min lines.length (startLine + limit)
        let selected := (lines.drop startLine).take (endLine - startLine)
        .ok ⟨some (joinNl (formatLines startLine selected)), none,
          some lines.length⟩

/-- Replaces the first child entry of the given name (the one every
handle lookup finds), modelling an in-place write through its handle. -/
def replaceFirst (es : List Entry) (n : String) (e2 : Entry) : List Entry :=
  match es with
  | [] => []
  | e :: rest => if e.name == n then e2 :: rest else e :: replaceFirst rest n e2

/-- The navigate-and-create part of `writeFile`: intermediate segments via
`getDirectoryHandle(seg, {create:true})`, then
`getFileHandle(name, {create:true})` and the content write.  A name held
by an entry of the other kind is a `TypeMismatch` failure; newly created
entries enumerate after the existing ones. -/
def writeEntries : List String → List Char → List Entry → Except String (List Entry)
  | [], _, _ => .error "Invalid path"
  | [f], content, es =>
    match lookupName es f with
    | some (.file _ _ lm _) =>
      .ok (replaceFirst es f (.file f content.length lm (some content)))
    | some (.dir _ _) => .error "TypeMismatch"
    | none => .ok (es ++ [.file f content.length 0 (some content)])
  | s :: rest, content, es =>
    match lookupName es s with
    | some (.dir m cs) =>
      (writeEntries rest content cs).map (fun cs2 => replaceFirst es s (.dir m cs2))
    | some (.file _ _ _ _) => .error "TypeMismatch"
    | none => (writeEntries rest content []).map (fun cs2 => es ++ [.dir s cs2])

inductive EvKind where
  | create
  | update
  | delete
  deriving DecidableEq

/-- The registry with the first folder of the given name carrying a new
entry list (the folder whose handle `writeFile` wrote through). -/
def updateFolderEntries (folders : List TrackedFolder) (folderName : String)
    (es2 : List Entry) : List TrackedFolder :=
  match folders with
  | [] => []
  | f :: rest =>
    if f.name == folderName then { f with entries := es2 } :: rest
    else f :: updateFolderEntries rest folderName es2

/-- `writeFile(path, content)`: checks prior existence (for the event
kind), navigates with `create: true`, writes the content, and emits a
`create` or `update` change event. -/
def writeFile (folders : List TrackedFolder) (path : String)
    (content : List Char) : Except String (List TrackedFolder × EvKind) :=
  match parsePath path with
  | .error e => .error e
  | .ok (folderName, rest) =>
    match folders.find? (fun f => f.name == folderName) with
    | none => .error ("Folder not found: " ++ folderName)
    | some f =>
      let fileExists := (resolveFile f.entries rest).isSome
      match writeEntries rest content f.entries with
      | .error e => .error ("Failed to write file: " ++ e)
      | .ok es2 =>
        .ok (updateFolderEntries folders folderName es2,
          if fileExists then .update else .create)

/-- JS `content.indexOf(oldString)` as an optional index. -/
def jsIndexOf (hay pat : List Char) : Option Nat :=
  if pat.isPrefixOf hay then some 0
  else
    match hay with
    | [] => none
    | _ :: t => (jsIndexOf t pat).map (fun i => i + 1)

/-- The scan of a global regex built from a non-empty escaped literal:
successive non-overlapping occurrences, left to right. -/
def replLoop (o : Char) (os newString : List Char) : List Char → List Char × Nat
  | [] => ([], 0)
  | c :: rest =>
    if (o :: os).isPrefixOf (c :: rest) then
      let r := replLoop o os newString (rest.drop os.length)
      (newString ++ r.1, r.2 + 1)
    else
      let r := replLoop o os newString rest
      (c :: r.1, r.2)
  termination_by s => s.length
  decreasing_by
  · simp only [List.length_cons]
    have := List.length_drop os.length rest
    omega
  · simp [List.length_cons]

/-- `content.replace(regex, cb)` for the global regex `editFile` builds by
escaping `oldString`: replaces the successive non-overlapping occurrences
of the literal and counts them; an empty literal matches at every
boundary, as an empty-pattern global regex does. -/
def replaceAllLit (oldString newString s : List Char) : List Char × Nat :=
  match oldString with
  | [] => (newString ++ s.foldr (fun c acc => c :: (newString ++ acc)) [], s.length + 1)
  | o :: os => replLoop o os newString s

/-- `editFile(path, oldString, newString, replaceAll)`.  The result
carries the new registry state, the replacement count and the emitted
change events (the one from the inner `writeFile`, then the edit's own
`update`). -/
def editFile (folders : List TrackedFolder) (path : String)
    (oldString newString : List Char) (replaceAll : Bool) :
    Except String (List TrackedFolder × Nat × List EvKind) :=
  match getFileHandleTool folders path with
  | .error e => .error e
  | .ok none => .error ("File not found: " ++ path)
  | .ok (some (.dir _ _)) => .error ("File not found: " ++ path)
  | .ok (some (.file _ _ _ none)) => .error "read failure"
  | .ok (some (.file _ _ _ (some content))) =>
    let res : Except String (List Char × Nat) :=
      if replaceAll then .ok (replaceAllLit oldString newString content)
      else
        match jsIndexOf content oldString with
        | none =>
          .error ("String not found in file: \"" ++ String.mk oldString ++ "\"")
        | some i =>
          .ok (content.take i ++ newString ++ content.drop (i + oldString.length), 1)
    match res with
    | .error e => .error e
    | .ok (newContent, replacements) =>
      match writeFile folders path newContent with
      | .error e => .error e
      | .ok (folders2, ev) => .ok (folders2, replacements, [ev, .update])

/-! ## Glob matching (micromatch, modelled from the spec) -/

/-- Fuel-indexed segment matcher; each step shrinks pattern or input, so
the fuel `matchSeg` supplies never runs out. -/
def matchSegAux : Nat → List Char → List Char → Bool
  | 0, _, _ => false
  | fuel + 1, ps, cs =>
    match ps, cs with
    | [], [] => true
    | '*' :: ps2, cs =>
      matchSegAux fuel ps2 cs ||
        (match cs with
         | [] => false
         | _ :: cs2 => matchSegAux fuel ('*' :: ps2) cs2)
    | '?' :: ps2, _ :: cs2 => matchSegAux fuel ps2 cs2
    | p :: ps2, c :: cs2 => p == c && matchSegAux fuel ps2 cs2
    | _ :: _, [] => false
    | [], _ :: _ => false

/-- Modelled from the spec: one segment of `micromatch.isMatch` — `*`
matches any run of characters inside the segment, `?` a single
character, other characters match themselves. -/
def matchSeg (ps cs : List Char) : Bool :=
  matchSegAux (ps.length + cs.length + 1) ps cs

/-- Fuel-indexed segment-list matcher. -/
def matchSegsAux : Nat → List (List Char) → List (List Char) → Bool
  | 0, _, _ => false
  | fuel + 1, ps, ss =>
    match ps, ss with
    | [], [] => true
    | [], _ :: _ => false
    | p :: ps2, ss =>
      if p = ['*', '*'] then
        matchSegsAux fuel ps2 ss ||
          (match ss with
           | [] => false
           | _ :: ss2 => matchSegsAux fuel (p :: ps2) ss2)
      else
        match ss with
        | [] => false
        | s :: ss2 => matchSeg p s && matchSegsAux fuel ps2 ss2

/-- Modelled from the spec: segment-list matching — a `**` segment
matches any number of whole segments (including none), any other pattern
segment matches exactly one path segment via `matchSeg`. -/
def matchSegs (ps ss : List (List Char)) : Bool :=
  matchSegsAux (ps.length + ss.length + 1) ps ss

def segsOf (s : String) : List (List Char) :=
  splitOnChar '/' s.data

/-- Modelled from the spec: `micromatch.isMatch(str, pattern)` with the
documented `*` / `**` / `?` glob semantics. -/
def isMatch (str pattern : String) : Bool :=
  matchSegs (segsOf pattern) (segsOf str)

/-- `relativePath ? relativePath + "/" + name : name` (the empty string is
falsy in JS). -/
def relJoin (relPath n : String) : String :=
  if relPath = "" then n else relPath ++ "/" ++ n

/-! ## globFiles and grepFiles (source part_006) -/

mutual
/-- One entry of the `scanDirectory` walk of `globFiles`: a file is tested
with its path relative to the folder root, and its absolute virtual path
is collected on a match; a directory is scanned recursively. -/
def scanEntry (pattern : String) : Entry → String → String → List String
  | .file n _ _ _, basePath, relPath =>
    if isMatch (relJoin relPath n) pattern then [basePath ++ "/" ++ n] else []
  | .dir n cs, basePath, relPath =>
    scanList pattern cs (basePath ++ "/" ++ n) (relJoin relPath n)

def scanList (pattern : String) : List Entry → String → String → List String
  | [], _, _ => []
  | e :: es, basePath, relPath =>
    scanEntry pattern e basePath relPath ++ scanList pattern es basePath relPath
end

/-- The JS default sort comparison: code-unit lexicographic string
order, as a comparator result. -/
def lexLe (a b : String) : Prop :=
  lexCmpN (a.data.map Char.toNat) (b.data.map Char.toNat) ≤ 0

instance : DecidableRel lexLe :=
  fun a b => inferInstanceAs (Decidable (_ ≤ _))

/-- `results.sort()`: the JS default ascending string sort. -/
def sortStrings (l : List String) : List String :=
  List.insertionSort lexLe l

/-- `folderName.replace(/^\//, "")`: removes one leading slash. -/
def stripLeadSlash (n : String) : String :=
  match n.data with
  | '/' :: rest => String.mk rest
  | _ => n

/-- `globFiles({pattern, folderName})`: strips one leading slash from the
folder filter, searches the selected folders (empty selection yields an
empty result), and returns the collected absolute paths sorted. -/
def globFiles (folders : List TrackedFolder) (pattern : String)
    (folderName : Option String) : List String :=
  let normalized := folderName.map stripLeadSlash
  let foldersToSearch : List TrackedFolder :=
    match normalized with
    | some n => folders.filter (fun f => f.name == n)
    | none => folders
  if foldersToSearch.isEmpty then []
  else
    sortStrings (foldersToSearch.flatMap
      (fun f => scanList pattern f.entries ("/" ++ f.name) ""))

structure GrepResult where
  path : String
  lineNumber : Nat
  line : List Char
  column : Nat
  deriving DecidableEq

/-- The per-line loop of `grepFiles`: `matchAll` yields the match start
columns of one line, and one result record is pushed per match, with the
1-based line number and the full line text. -/
def grepLines (m : List Char → List Nat) (path : String) :
    Nat → List (List Char) → List GrepResult
  | _, [] => []
  | i, l :: ls =>
    (m l).map (fun col => ⟨path, i + 1, l, col⟩) ++ grepLines m path (i + 1) ls

mutual
/-- One entry of the `searchDirectory` walk of `grepFiles`: files are
filtered by `filePattern` against the relative path; a file whose read or
text decode fails is skipped silently; directories recurse. -/
def searchEntry (m : List Char → List Nat) (filePattern : String) :
    Entry → String → String → List GrepResult
  | .file n _ _ content, basePath, relPath =>
    if isMatch (relJoin relPath n) filePattern then
      match content with
      | none => []
      | some txt => grepLines m (basePath ++ "/" ++ n) 0 (splitNl txt)
    else []
  | .dir n cs, basePath, relPath =>
    searchList m filePattern cs (basePath ++ "/" ++ n) (relJoin relPath n)

def searchList (m : List Char → List Nat) (filePattern : String) :
    List Entry → String → String → List GrepResult
  | [], _, _ => []
  | e :: es, basePath, relPath =>
    searchEntry m filePattern e basePath relPath ++
      searchList m filePattern es basePath relPath
end

/-- The `foldersToSearch` selection of `grepFiles` (no slash-stripping,
unlike `globFiles`). -/
def grepTargets (folders : List TrackedFolder) (folderName : Option String) :
    List TrackedFolder :=
  match folderName with
  | some n => folders.filter (fun f => f.name == n)
  | none => folders

/-- `grepFiles(params)`: selects folders by the (unstripped) name filter,
returns an empty result for an empty selection, then compiles the regex —
`compile` is the platform `new RegExp(pattern, flags)`, whose failure on
an invalid pattern propagates — and walks the selected folders. -/
def grepFiles (compile : String → Bool → Except String (List Char → List Nat))
    (folders : List TrackedFolder) (pattern : String)
    (folderName : Option String) (filePattern : String) (ignoreCase : Bool) :
    Except String (List GrepResult) :=
  let foldersToSearch := grepTargets folders folderName
  if foldersToSearch.isEmpty then .ok []
  else
    match compile pattern ignoreCase with
    | .error e => .error e
    | .ok m =>
      .ok (foldersToSearch.flatMap
        (fun f => searchList m filePattern f.entries ("/" ++ f.name) ""))

/-! ## Model of the platform regex engine for literal patterns -/

def foldCase (ignoreCase : Bool) (c : Char) : Char :=
  if ignoreCase then c.toLower else c

/-- The scan loop of a global regex: `i` is the current position, `minI`
the regex's `lastIndex` (the first position a new match may start at,
which enforces non-overlap and steps past empty matches). -/
def litScanAux (ignoreCase : Bool) (pat : List Char) :
    List Char → Nat → Nat → List Nat
  | [], i, minI => if pat.isEmpty ∧ minI ≤ i then [i] else []
  | c :: rest, i, minI =>
    if minI ≤ i ∧ (pat.map (foldCase ignoreCase)).isPrefixOf
        ((c :: rest).map (foldCase ignoreCase)) then
      i :: litScanAux ignoreCase pat rest (i + 1) (i + max pat.length 1)
    else litScanAux ignoreCase pat rest (i + 1) minI

/-- Modelled from the spec: `line.matchAll(regex)` for a regex built from
a plain alphabetic literal with the `g` (and optionally `i`) flag yields
the successive non-overlapping occurrences of the literal, case-folded
when case-insensitive; this returns their 0-based start columns. -/
def litScan (ignoreCase : Bool) (pat line : List Char) : List Nat :=
  litScanAux ignoreCase pat line 0 0

/-- The platform `new RegExp` applied to a literal alphabetic pattern:
always compiles, and matches as `litScan` scans. -/
def litCompile (pattern : String) (ignoreCase : Bool) :
    Except String (List Char → List Nat) :=
  .ok (fun line => litScan ignoreCase pattern.data line)

/-! ## Definitions written from the spec, for comparison with the code -/

/-- Modelled from the spec: PathResolver's walk — every segment except the
last resolves as a directory child and fails as NotFound otherwise; the
last segment tries directory-child resolution first, then file-child
resolution. -/
def walkSpec (cur : Entry) (segs : List String) : Option Entry :=
  match cur, segs with
  | cur, [] => some cur
  | .dir _ cs, [p] =>
    match getDirEntry cs p with
    | some d => some d
    | none => getFileEntry cs p
  | .dir _ cs, p :: rest =>
    match getDirEntry cs p with
    | some d => walkSpec d rest
    | none => none
  | .file _ _ _ _, _ :: _ => none
  termination_by segs.length

/-- Modelled from the spec: `resolve(path)` — first segment selects the
folder by display name (first match), the rest walks as `walkSpec`. -/
def resolveSpec (folders : List TrackedFolder) (path : String) : Option Entry :=
  match splitPath path with
  | [] => none
  | folderName :: rest =>
    match folders.find? (fun f => f.name == folderName) with
    | none => none
    | some f => walkSpec (.dir f.name f.entries) rest

/-- Modelled from the spec: stripping the added per-line numbering prefix
(the padded line number and the arrow) from each displayed line. -/
def stripLines (startLine : Nat) : List (List Char) → List (List Char)
  | [] => []
  | l :: ls =>
    l.drop (max 6 (decDigits (startLine + 1)).length + 1)
      :: stripLines (startLine + 1) ls

/-- Modelled from the spec: the reverse of the display formatting of
`readFile` at offset 0. -/
def stripLineNumbering (txt : List Char) : List Char :=
  joinNl (stripLines 0 (splitNl txt))

mutual
/-- All file paths of an entry, relative to its parent. -/
def entryRels : Entry → List String
  | .file n _ _ _ => [n]
  | .dir n cs => (listRels cs).map (fun r => n ++ "/" ++ r)

def listRels : List Entry → List String
  | [] => []
  | e :: es => entryRels e ++ listRels es
end

mutual
/-- Every entry name in the tree is non-empty (true of any real
directory tree). -/
def entryNamesOK : Entry → Bool
  | .file n _ _ _ => n != ""
  | .dir n cs => n != "" && listNamesOK cs

def listNamesOK : List Entry → Bool
  | [] => true
  | e :: es => entryNamesOK e && listNamesOK es
end

/-- Modelled from the spec: the keep condition of registry load — a folder
whose capability exposes no permission-query operation, or whose query
yields no result, is implicitly permitted; a present result must be
"granted". -/
def specPermitsB (h : CapHandle) : Bool :=
  match h.queryPermission with
  | none => true
  | some qp =>
    match qp .readwrite with
    | none => true
    | some p => p == Perm.granted

/-- The registry load the spec's words describe: a record whose capability
is missing is dropped; when the capability exposes a permission-query
operation it is invoked for read-write intent and the record is dropped
when the result is present and not "granted"; otherwise it is kept. -/
def loadFoldersSpec (metadata : List FolderMetadata)
    (store : String → Option CapHandle) : List LoadedFolder :=
  metadata.filterMap (fun meta =>
    match store meta.id with
    | none => none
    | some h =>
      if specPermitsB h then some ⟨meta.id, meta.name, h, meta.addedAt⟩
      else none)

/-- Every children list present in the tree is sorted by the comparator
order and lists all directories before all files. -/
inductive AllSorted (lc : String → String → Int) : FTree → Prop where
  | node : ∀ n p t ch ex sz lm,
      (∀ cs, ch = some cs → List.Sorted (leNode lc) cs) →
      (∀ cs, ch = some cs →
        List.Pairwise (fun a b => b.type = NType.dir → a.type = NType.dir) cs) →
      (∀ cs, ch = some cs → ∀ c ∈ cs, AllSorted lc c) →
      AllSorted lc (.node n p t ch ex sz lm)

/-- Directory-typed nodes precede file-typed nodes. -/
def dirsBeforeFiles (cs : List FTree) : Prop :=
  List.Pairwise (fun a b => b.type = NType.dir → a.type = NType.dir) cs

/-! ## Concrete fixtures for witnesses and counterexamples -/

/-- A capability handle whose permission query would report "denied" for
every mode, were it invoked on its receiver. -/
def deniedHandle : CapHandle :=
  ⟨"f", some (fun _ => some Perm.denied)⟩

/-- A capability store holding only `deniedHandle` under id `id1`. -/
def deniedStore : String → Option CapHandle :=
  fun i => if i == "id1" then some deniedHandle else none

/-- One persisted metadata record pointing at `deniedHandle`. -/
def deniedMeta : List FolderMetadata :=
  [⟨"id1", "f", 0⟩]

/-- A tracked folder whose subdirectory `sub` contains one file. -/
def lazyFolders : List TrackedFolder :=
  [⟨"id1", "f", [Entry.dir "sub" [Entry.file "x.txt" 1 0 none]]⟩]

/-- A tracked folder with two files whose names order differently under
the locale comparison and under code-point comparison. -/
def caseFolders : List TrackedFolder :=
  [⟨"id1", "x", [Entry.file "B" 1 0 none, Entry.file "a" 1 0 none]⟩]

/-- The folder of the spec's glob example: `a.ts`, `b/c.ts`, `b/d.txt`. -/
def globFolder : TrackedFolder :=
  ⟨"id1", "folder",
    [Entry.file "a.ts" 1 0 none,
     Entry.dir "b" [Entry.file "c.ts" 1 0 none, Entry.file "d.txt" 1 0 none]]⟩

/-- The folder of the spec's grep example: one file containing
`"Foo bar\nbaz foo\n"`. -/
def grepFolders : List TrackedFolder :=
  [⟨"id1", "f", [Entry.file "a.txt" 16 0 (some "Foo bar\nbaz foo\n".data)]⟩]

/-- An empty tracked folder, to write into. -/
def emptyFolders : List TrackedFolder := [⟨"id1", "f", []⟩]

/-- A folder holding one file with content `"foo foo"`, to edit. -/
def editFolders : List TrackedFolder :=
  [⟨"id1", "f", [Entry.file "a.txt" 7 0 (some "foo foo".data)]⟩]

/-- A single 2001-character line, longer than the display truncation
threshold of `readFile`. -/
def longLine : List Char := List.replicate 2001 'a'

/-- Write the long line, read it back, and strip the numbering prefix. -/
def longLineRoundTrip : Option (List Char) :=
  (((writeFile emptyFolders "/f/big.txt" longLine).toOption.bind
    (fun fo => (readFile fo.1 "/f/big.txt" 0 2000).toOption)).bind
    (fun r => r.content)).map stripLineNumbering

/-- A `new RegExp` call that rejects the pattern, modelling an invalid
regular expression. -/
def badCompile : String → Bool → Except String (List Char → List Nat) :=
  fun _ _ => .error "Invalid regular expression"

/-! ## C5: path resolution -/

theorem getDirEntry_isDir {es : List Entry} {n : String} {d : Entry}
    (h : getDirEntry es n = some d) : ∃ m cs, d = Entry.dir m cs := by
  unfold getDirEntry at h
  rcases hl : lookupName es n with _ | e <;> rw [hl] at h
  · simp at h
  · cases e with
    | file a b c dd => simp at h
    | dir m cs => simp at h; exact ⟨m, cs, h.symm⟩

theorem walkLoop_eq_walkSpec (segs : List String) : ∀ (n : String) (cs : List Entry),
    walkLoop (.dir n cs) segs = walkSpec (.dir n cs) segs := by
  induction segs with
  | nil => intro n cs; simp [walkLoop, walkSpec]
  | cons p rest ih =>
    intro n cs
    rcases rest with _ | ⟨q, rest2⟩
    · rcases hd : getDirEntry cs p with _ | d
      · simp [walkLoop, walkSpec, hd]
      · simp [walkLoop, walkSpec, hd]
    · rcases hd : getDirEntry cs p with _ | d
      · simp [walkLoop, walkSpec, hd]
      · obtain ⟨m, ds, rfl⟩ := getDirEntry_isDir hd
        simp only [walkLoop, walkSpec, hd]
        exact ih m ds

/-- C5: `getHandleFromPath` implements exactly the spec's resolution: the
first segment selects a tracked folder by display name (first match);
every remaining segment except the last resolves as a directory child and
the walk fails (NotFound, modelled `none`) if that lookup fails; the last
segment is first tried as a directory child, then as a file child, and
resolution fails only when both attempts fail. -/
theorem getHandleFromPath_eq_resolveSpec (folders : List TrackedFolder)
    (path : String) :
    getHandleFromPath folders path = resolveSpec folders path := by
  rcases hp : splitPath path with _ | ⟨folderName, rest⟩
  · simp [getHandleFromPath, resolveSpec, hp]
  · rcases hf : folders.find? (fun f => f.name == folderName) with _ | f
    · simp [getHandleFromPath, resolveSpec, hp, hf]
    · simp only [getHandleFromPath, resolveSpec, hp, hf]
      exact walkLoop_eq_walkSpec rest f.name f.entries

/-! ## C8: registry load -/

/-- C8: code bug — the permission-drop branch of `loadFolders` is dead.
With a stored capability whose permission query would report "denied" for
read-write intent, the spec's words drop the folder, but the program
keeps it: the source calls the extracted `queryPermission` without its
receiver, the call throws `TypeError: Illegal invocation`, and the
surrounding catch ("assume we have access") keeps the record, so the
loaded list and the spec-described list diverge on this input. -/
theorem loadFolders_keeps_denied :
    loadFolders deniedMeta deniedStore = [⟨"id1", "f", deniedHandle, 0⟩] ∧
      loadFoldersSpec deniedMeta deniedStore = [] :=
  ⟨rfl, rfl⟩

/-! ## C9: generated folder ids -/

theorem append_dash_inj : ∀ {a b s t : List Char}, (∀ c ∈ a, c ≠ '-') →
    (∀ c ∈ b, c ≠ '-') → a ++ '-' :: s = b ++ '-' :: t → a = b ∧ s = t := by
  intro a
  induction a with
  | nil =>
    intro b s t _ hb h
    cases b with
    | nil => simpa using h
    | cons y ys =>
      simp only [List.nil_append, List.cons_append, List.cons.injEq] at h
      exact absurd h.1.symm (hb y (List.mem_cons_self _ _))
  | cons x xs ih =>
    intro b s t ha hb h
    cases b with
    | nil =>
      simp only [List.cons_append, List.nil_append, List.cons.injEq] at h
      exact absurd h.1 (ha x (List.mem_cons_self _ _))
    | cons y ys =>
      simp only [List.cons_append, List.cons.injEq] at h
      obtain ⟨hxy, h2⟩ := h
      obtain ⟨h3, h4⟩ := ih (fun c hc => ha c (List.mem_cons_of_mem _ hc))
        (fun c hc => hb c (List.mem_cons_of_mem _ hc)) h2
      exact ⟨by rw [hxy, h3], h4⟩

/-- C9 (amended): two generated folder ids coincide exactly when both the
timestamp draw and the random-suffix draw coincide — `generateFolderId`
is injective in the pair of draws, so ids differ whenever either draw
differs; uniqueness across invocations is only probabilistic. -/
theorem generateFolderId_inj {t1 s1 t2 s2} :
    generateFolderId t1 s1 = generateFolderId t2 s2 → t1 = t2 ∧ s1 = s2 := by
  intro h
  unfold generateFolderId at h
  rw [List.append_assoc, List.append_assoc] at h
  have h2 := List.append_cancel_left h
  obtain ⟨h3, h4⟩ := append_dash_inj (decDigits_ne_dash t1) (decDigits_ne_dash t2) h2
  exact ⟨decDigits_injective h3, h4⟩

theorem generateFolderId_inj_witness :
    (1700000000000 : Nat) = 1700000000000 ∧ "0a1b2c3".data = "0a1b2c3".data :=
  generateFolderId_inj rfl

/-- C9 counterexample: the claim promises distinct ids for any two
distinct invocations, but an invocation is only distinguished by its two
draws — `Date.now()` (millisecond precision) and the 7-character random
suffix — and two `addFolder` calls that draw the same millisecond and the
same suffix produce the very same id. -/
theorem generateFolderId_collision :
    ¬ (generateFolderId 1700000000000 "0a1b2c3".data ≠
        generateFolderId 1700000000000 "0a1b2c3".data) :=
  fun h => h rfl

/-! ## C1: tree building is lazy, not eager -/

/-- C1 counterexample: over a folder whose subdirectory `sub` holds one
file, `getFileTree` returns the `sub` node with `children = some []` and
`expanded = false` — the descendant is not enumerated (the claimed eager,
fully populated tree would list it), and an unexpanded directory is
represented by the same empty `children` list a truly empty directory
would get, not by absent children. -/
theorem getFileTree_lazy_counterexample :
    getFileTree localeCompare lazyFolders "id1" =
      some (.node "f" "/f" .dir
        (some [.node "sub" "/f/sub" .dir (some []) (some false) none none])
        (some true) none none) ∧
    lazyFolders.map (fun f => f.entries) =
      [[Entry.dir "sub" [Entry.file "x.txt" 1 0 none]]] ∧
    ([] : List FTree) ≠
      [FTree.node "x.txt" "/f/sub/x.txt" .file none none (some 1) (some 0)] :=
  ⟨rfl, rfl, fun h => List.noConfusion h⟩

/-- C1 (amended): `getFileTree` returns a tree rooted at a synthetic node
with name = displayName, path = `/displayName`, type = directory,
expanded = true, whose children are exactly the folder's direct entries
(sorted); enumeration stops there — every directory child is emitted
lazily with `children = some []` and `expanded = some false`, so an empty
children list does not distinguish an unexpanded directory from one known
to be empty (the `expanded` flag does). -/
theorem getFileTree_shallow (lc : String → String → Int)
    (folders : List TrackedFolder) (folderId : String) (f : TrackedFolder)
    (hf : folders.find? (fun g => g.id == folderId) = some f) :
    ∃ cs, getFileTree lc folders folderId =
        some (.node f.name ("/" ++ f.name) .dir (some cs) (some true) none none) ∧
      cs.Perm (f.entries.map (childNode ("/" ++ f.name))) ∧
      ∀ c ∈ cs, c.type = NType.dir →
         c.children = some [] ∧ c.expanded = some false := by
  refine ⟨sortChildren lc (f.entries.map (childNode ("/" ++ f.name))), ?_, ?_, ?_⟩
  · simp [getFileTree, hf]
  · exact List.perm_insertionSort _ _
  · intro c hc hdir
    have hc2 : c ∈ f.entries.map (childNode ("/" ++ f.name)) :=
      (List.mem_insertionSort _).mp hc
    obtain ⟨e, _, rfl⟩ := List.mem_map.mp hc2
    cases e with
    | dir n cs2 => exact ⟨rfl, rfl⟩
    | file n sz lm c0 => exact absurd hdir (by simp [childNode, FTree.type])

theorem getFileTree_shallow_witness :
    ∃ cs, getFileTree localeCompare lazyFolders "id1" =
        some (.node "f" "/f" .dir (some cs) (some true) none none) ∧
      cs.Perm ([Entry.dir "sub" [Entry.file "x.txt" 1 0 none]].map (childNode "/f")) ∧
      ∀ c ∈ cs, c.type = NType.dir →
         c.children = some [] ∧ c.expanded = some false :=
  getFileTree_shallow localeCompare lazyFolders "id1"
    ⟨"id1", "f", [Entry.dir "sub" [Entry.file "x.txt" 1 0 none]]⟩ rfl

/-! ## C4: the sort invariant of children lists -/

theorem leNode_trans (lc : String → String → Int)
    (htr : ∀ a b c, lc a b ≤ 0 → lc b c ≤ 0 → lc a c ≤ 0) :
    ∀ a b c : FTree, leNode lc a b → leNode lc b c → leNode lc a c := by
  intro a b c hab hbc
  unfold leNode nodeCmp at hab hbc ⊢
  cases ha : a.type <;> cases hb : b.type <;> cases hc : c.type <;>
      simp [ha, hb, hc] at hab hbc ⊢ <;>
    first
      | exact htr _ _ _ hab hbc
      | omega

theorem leNode_total (lc : String → String → Int)
    (hto : ∀ a b, lc a b ≤ 0 ∨ lc b a ≤ 0) :
    ∀ a b : FTree, leNode lc a b ∨ leNode lc b a := by
  intro a b
  unfold leNode nodeCmp
  cases ha : a.type <;> cases hb : b.type <;> simp [ha, hb] <;>
    first
      | exact hto _ _
      | omega

theorem sorted_sortChildren (lc : String → String → Int)
    (htr : ∀ a b c, lc a b ≤ 0 → lc b c ≤ 0 → lc a c ≤ 0)
    (hto : ∀ a b, lc a b ≤ 0 ∨ lc b a ≤ 0) (cs : List FTree) :
    List.Sorted (leNode lc) (sortChildren lc cs) := by
  haveI : IsTrans FTree (leNode lc) := ⟨leNode_trans lc htr⟩
  haveI : IsTotal FTree (leNode lc) := ⟨leNode_total lc hto⟩
  exact List.sorted_insertionSort _ _

theorem dirsBeforeFiles_of_sorted {lc : String → String → Int}
    {cs : List FTree} (h : List.Sorted (leNode lc) cs) : dirsBeforeFiles cs := by
  unfold dirsBeforeFiles
  refine h.imp ?_
  intro a b hab
  intro hbd
  cases ha : a.type with
  | dir => rfl
  | file =>
    unfold leNode nodeCmp at hab
    rw [ha, hbd] at hab
    simp at hab

theorem allSorted_childNode (lc : String → String → Int) (base : String)
    (e : Entry) : AllSorted lc (childNode base e) := by
  cases e with
  | dir n cs =>
    simp only [childNode]
    refine AllSorted.node _ _ _ _ _ _ _ ?_ ?_ ?_
    · intro cs2 h
      obtain rfl : ([] : List FTree) = cs2 := Option.some.inj h
      exact List.sorted_nil
    · intro cs2 h
      obtain rfl : ([] : List FTree) = cs2 := Option.some.inj h
      exact List.Pairwise.nil
    · intro cs2 h c hc
      obtain rfl : ([] : List FTree) = cs2 := Option.some.inj h
      simp at hc
  | file n sz lm c0 =>
    simp only [childNode]
    refine AllSorted.node _ _ _ _ _ _ _ ?_ ?_ ?_ <;>
      intro cs2 h <;> exact absurd h (by simp)

/-- C4 (amended): for every children list produced by `getFileTree` or
`expandDirectory`, and any enumeration order of the underlying handle,
all directory-typed entries precede all file-typed entries, and the list
is sorted by the comparator the code actually uses — directories first,
then `localeCompare` on names (a locale-aware, primarily
case-insensitive comparison, here any `lc` that is a total preorder),
not case-sensitive lexical comparison. -/
theorem treeSort_amended (lc : String → String → Int)
    (htr : ∀ a b c, lc a b ≤ 0 → lc b c ≤ 0 → lc a c ≤ 0)
    (hto : ∀ a b, lc a b ≤ 0 ∨ lc b a ≤ 0) :
    (∀ folders folderId t, getFileTree lc folders folderId = some t →
      AllSorted lc t) ∧
    (∀ folders path,
      List.Sorted (leNode lc) (expandDirectory lc folders path) ∧
      dirsBeforeFiles (expandDirectory lc folders path) ∧
      ∀ c ∈ expandDirectory lc folders path, AllSorted lc c) := by
  have hsort : ∀ cs, List.Sorted (leNode lc) (sortChildren lc cs) :=
    sorted_sortChildren lc htr hto
  have hnode : ∀ (base : String) (es : List Entry),
      ∀ c ∈ sortChildren lc (List.map (childNode base) es), AllSorted lc c := by
    intro base es c hc
    obtain ⟨e, _, rfl⟩ := List.mem_map.mp ((List.mem_insertionSort _).mp hc)
    exact allSorted_childNode lc base e
  constructor
  · intro folders folderId t ht
    unfold getFileTree at ht
    rcases hf : folders.find? (fun f => f.id == folderId) with _ | f <;>
      rw [hf] at ht
    · simp at ht
    · obtain rfl := Option.some.inj ht
      refine AllSorted.node _ _ _ _ _ _ _ ?_ ?_ ?_ <;> intro cs h
      · obtain rfl := Option.some.inj h
        exact hsort _
      · obtain rfl := Option.some.inj h
        exact dirsBeforeFiles_of_sorted (hsort _)
      · obtain rfl := Option.some.inj h
        exact hnode _ _
  · intro folders path
    rcases hp : splitPath path with _ | ⟨fn, rest⟩
    · simp only [expandDirectory, hp]
      exact ⟨List.sorted_nil, List.Pairwise.nil, by simp⟩
    · rcases hf : folders.find? (fun f => f.name == fn) with _ | f
      · simp only [expandDirectory, hp, hf]
        exact ⟨List.sorted_nil, List.Pairwise.nil, by simp⟩
      · rcases hn : navDirs f.entries rest with _ | es
        · simp only [expandDirectory, hp, hf, hn]
          exact ⟨List.sorted_nil, List.Pairwise.nil, by simp⟩
        · simp only [expandDirectory, hp, hf, hn]
          exact ⟨hsort _, dirsBeforeFiles_of_sorted (hsort _), hnode path es⟩

theorem treeSort_amended_witness :
    List.Sorted (leNode (fun _ _ => 0))
      (expandDirectory (fun _ _ => 0) caseFolders "/x") :=
  ((treeSort_amended (fun _ _ => 0) (fun _ _ _ _ _ => Int.le_refl 0)
    (fun _ _ => Or.inl (Int.le_refl 0))).2 caseFolders "/x").1

/-- C4 counterexample: with the platform's default-locale `localeCompare`,
a folder containing the files `B` and `a` is listed as `["a", "B"]` —
sorted by the locale order, which is not non-decreasing under
case-sensitive lexical (code-point) comparison, since `"a"` is greater
than `"B"` there. -/
theorem treeSort_counterexample :
    (getFileTree localeCompare caseFolders "id1").map
        (fun t => (t.children.getD []).map FTree.name) = some ["a", "B"] ∧
    ¬ lexLe "a" "B" := by
  constructor
  · rfl
  · decide

/-! ## C7: one grep record per match occurrence -/

theorem grepLines_length (m : List Char → List Nat) (p : String) :
    ∀ (start : Nat) (ls : List (List Char)),
    (grepLines m p start ls).length = (ls.map (fun l => (m l).length)).sum := by
  intro start ls
  induction ls generalizing start with
  | nil => rfl
  | cons l ls ih => simp [grepLines, ih]

theorem grepLines_mem (m : List Char → List Nat) (p : String) :
    ∀ (start : Nat) (ls : List (List Char)) (r : GrepResult),
    r ∈ grepLines m p start ls →
    ∃ i, ls[i]? = some r.line ∧ r.lineNumber = start + i + 1 ∧
      r.column ∈ m r.line ∧ r.path = p := by
  intro start ls
  induction ls generalizing start with
  | nil => intro r hr; simp [grepLines] at hr
  | cons l ls ih =>
    intro r hr
    simp only [grepLines, List.mem_append, List.mem_map] at hr
    rcases hr with ⟨col, hcol, rfl⟩ | hr
    · exact ⟨0, by simp, by simp, hcol, rfl⟩
    · obtain ⟨i, h1, h2, h3, h4⟩ := ih (start + 1) r hr
      exact ⟨i + 1, by simpa using h1, by omega, h3, h4⟩

/-- C7: grep emits one result record per regex match occurrence, not per
line — over any line list the number of records is the sum over lines of
the number of matches — each record carrying the 1-based line number of
its line, the full line text and a 0-based match start column; and the
spec's example, grep "foo" with ignoreCase over a file containing
`"Foo bar\nbaz foo\n"`, yields exactly the two records
`{lineNumber 1, column 0}` and `{lineNumber 2, column 4}`. -/
theorem grep_per_occurrence :
    (∀ (m : List Char → List Nat) (p : String) (lines : List (List Char)),
      (grepLines m p 0 lines).length = (lines.map (fun l => (m l).length)).sum) ∧
    (∀ (m : List Char → List Nat) (p : String) (lines : List (List Char))
        (r : GrepResult), r ∈ grepLines m p 0 lines →
      ∃ i, lines[i]? = some r.line ∧ r.lineNumber = i + 1 ∧
        r.column ∈ m r.line ∧ r.path = p) ∧
    grepFiles litCompile grepFolders "foo" none "**/*" true =
      .ok [⟨"/f/a.txt", 1, "Foo bar".data, 0⟩,
           ⟨"/f/a.txt", 2, "baz foo".data, 4⟩] := by
  refine ⟨fun m p lines => grepLines_length m p 0 lines, ?_, ?_⟩
  · intro m p lines r hr
    obtain ⟨i, h1, h2, h3, h4⟩ := grepLines_mem m p 0 lines r hr
    exact ⟨i, h1, by omega, h3, h4⟩
  · rfl

theorem grep_per_occurrence_witness :
    ∃ i, (splitNl "Foo bar\nbaz foo\n".data)[i]? = some "baz foo".data ∧
      (2 : Nat) = i + 1 ∧ (4 : Nat) ∈ litScan true "foo".data "baz foo".data ∧
      ("/f/a.txt" : String) = "/f/a.txt" :=
  grep_per_occurrence.2.1 (fun l => litScan true "foo".data l) "/f/a.txt"
    (splitNl "Foo bar\nbaz foo\n".data) ⟨"/f/a.txt", 2, "baz foo".data, 4⟩
    (by decide)

/-! ## C3: grep error policy -/

theorem searchEntry_unreadable (m : List Char → List Nat) (filePattern : String)
    (n : String) (sz lm : Nat) (basePath relPath : String) :
    searchEntry m filePattern (.file n sz lm none) basePath relPath = [] := by
  simp only [searchEntry]
  split <;> rfl

theorem searchList_skips_unreadable (m : List Char → List Nat)
    (filePattern : String) (basePath relPath : String) (pre post : List Entry)
    (n : String) (sz lm : Nat) :
    searchList m filePattern (pre ++ .file n sz lm none :: post) basePath relPath =
      searchList m filePattern (pre ++ post) basePath relPath := by
  induction pre with
  | nil => simp [searchList, searchEntry_unreadable]
  | cons e pre ih => simp [searchList, ih]

/-- C3 (amended): an individual file whose read or text decode fails is
skipped and the walk continues — removing such a file from a directory
leaves the result unchanged, so results collected from other files are
preserved — and the whole call raises only when the caller-supplied regex
is invalid while the folder selection is non-empty; a folder filter
matching no tracked folder yields `.ok []`, an empty result, not an
error (the empty-selection return precedes regex compilation). -/
theorem grepFiles_error_policy :
    (∀ compile folders pattern folderName filePattern ignoreCase m,
      compile pattern ignoreCase = .ok m →
      ∃ rs, grepFiles compile folders pattern folderName filePattern ignoreCase =
        .ok rs) ∧
    (∀ compile folders pattern folderName filePattern ignoreCase e,
      grepTargets folders folderName ≠ [] →
      compile pattern ignoreCase = .error e →
      grepFiles compile folders pattern folderName filePattern ignoreCase =
        .error e) ∧
    (∀ compile folders pattern folderName filePattern ignoreCase,
      grepTargets folders folderName = [] →
      grepFiles compile folders pattern folderName filePattern ignoreCase =
        .ok []) ∧
    (∀ (m : List Char → List Nat) filePattern basePath relPath
        (pre post : List Entry) n sz lm,
      searchList m filePattern (pre ++ .file n sz lm none :: post) basePath
          relPath =
        searchList m filePattern (pre ++ post) basePath relPath) := by
  refine ⟨?_, ?_, ?_,
    fun m fp b r pre post n sz lm => searchList_skips_unreadable m fp b r pre post n sz lm⟩
  · intro compile folders pattern folderName filePattern ignoreCase m hm
    by_cases he : (grepTargets folders folderName).isEmpty
    · exact ⟨[], by simp [grepFiles, he]⟩
    · refine ⟨(grepTargets folders folderName).flatMap
        (fun f => searchList m filePattern f.entries ("/" ++ f.name) ""), ?_⟩
      simp [grepFiles, he, hm]
  · intro compile folders pattern folderName filePattern ignoreCase e hne he2
    have he3 : (grepTargets folders folderName).isEmpty = false := by
      simpa [List.isEmpty_iff] using hne
    simp [grepFiles, he3, he2]
  · intro compile folders pattern folderName filePattern ignoreCase h
    have he3 : (grepTargets folders folderName).isEmpty = true := by
      simp [List.isEmpty_iff, h]
    simp [grepFiles, he3]

theorem grepFiles_error_policy_witness :
    (∃ rs, grepFiles litCompile grepFolders "foo" none "**/*" true = .ok rs) ∧
    grepFiles badCompile grepFolders "foo" none "**/*" false =
      .error "Invalid regular expression" ∧
    grepFiles badCompile grepFolders "foo" (some "nosuch") "**/*" false =
      .ok [] ∧
    searchList (fun _ => []) "**/*" ([] ++ Entry.file "b" 0 0 none :: []) "/f" "" =
      searchList (fun _ => []) "**/*" ([] ++ []) "/f" "" :=
  ⟨grepFiles_error_policy.1 litCompile grepFolders "foo" none "**/*" true
      (fun line => litScan true "foo".data line) rfl,
   grepFiles_error_policy.2.1 badCompile grepFolders "foo" none "**/*" false
      "Invalid regular expression" (by simp [grepTargets, grepFolders]) rfl,
   grepFiles_error_policy.2.2.1 badCompile grepFolders "foo" (some "nosuch")
      "**/*" false rfl,
   grepFiles_error_policy.2.2.2 (fun _ => []) "**/*" "/f" "" [] [] "b" 0 0⟩

/-- C3 counterexample: the claim requires the whole call to raise when no
target folder matches the filter, but with an unmatched folder filter
`grepFiles` returns an empty result, not an error. -/
theorem grepFiles_missing_folder_counterexample :
    grepFiles litCompile grepFolders "foo" (some "nosuch") "**/*" true =
      .ok [] := rfl

/-! ## C10: editFile with an absent oldString -/

theorem getFileEntry_eq {es : List Entry} {n : String} {fe : Entry}
    (h : getFileEntry es n = some fe) :
    lookupName es n = some fe ∧ ∃ m sz lm c, fe = Entry.file m sz lm c := by
  unfold getFileEntry at h
  rcases hl : lookupName es n with _ | e <;> rw [hl] at h
  · simp at h
  · cases e with
    | file m sz lm c =>
      simp only [Option.some.injEq] at h
      subst h
      exact ⟨rfl, m, sz, lm, c, rfl⟩
    | dir m cs => simp at h

theorem getDirEntries_eq {es : List Entry} {n : String} {cs : List Entry}
    (h : getDirEntries es n = some cs) :
    ∃ m, lookupName es n = some (.dir m cs) := by
  unfold getDirEntries at h
  rcases hl : lookupName es n with _ | e <;> rw [hl] at h
  · simp at h
  · cases e with
    | file m sz lm c => simp at h
    | dir m cs2 =>
      simp only [Option.some.injEq] at h
      subst h
      exact ⟨m, rfl⟩

theorem writeEntries_of_resolveFile : ∀ (segs : List String) (es : List Entry)
    (fe : Entry), resolveFile es segs = some fe → ∀ c : List Char,
    ∃ es2, writeEntries segs c es = .ok es2 := by
  intro segs
  induction segs with
  | nil => intro es fe h; simp [resolveFile] at h
  | cons s rest ih =>
    intro es fe h c
    cases rest with
    | nil =>
      simp only [resolveFile] at h
      obtain ⟨hl, m, sz, lm, c0, rfl⟩ := getFileEntry_eq h
      exact ⟨replaceFirst es s (.file s c.length lm (some c)),
        by simp [writeEntries, hl]⟩
    | cons q rest2 =>
      simp only [resolveFile] at h
      rcases hd : getDirEntries es s with _ | cs <;> rw [hd] at h
      · simp at h
      · obtain ⟨m, hl⟩ := getDirEntries_eq hd
        obtain ⟨cs2, hw⟩ := ih cs fe h c
        exact ⟨replaceFirst es s (.dir m cs2),
          by simp [writeEntries, hl, hw, Except.map]⟩

theorem writeFile_of_resolved (folders : List TrackedFolder) (path : String)
    (fname : String) (sz lm : Nat) (c0 : Option (List Char))
    (hres : getFileHandleTool folders path =
      .ok (some (.file fname sz lm c0))) (c : List Char) :
    ∃ folders2, writeFile folders path c = .ok (folders2, .update) := by
  unfold getFileHandleTool at hres
  split at hres
  · simp at hres
  · rename_i fn rest hp
    split at hres
    · simp at hres
    · rename_i f hf
      simp only [Except.ok.injEq] at hres
      obtain ⟨es2, hw⟩ := writeEntries_of_resolveFile rest f.entries _ hres c
      refine ⟨updateFolderEntries folders fn es2, ?_⟩
      simp [writeFile, hp, hf, hres, hw]

theorem jsIndexOf_nil_pat (hay : List Char) : jsIndexOf hay [] = some 0 := by
  cases hay <;> simp [jsIndexOf, List.isPrefixOf]

theorem replLoop_absent (o : Char) (os newString : List Char) :
    ∀ s : List Char, jsIndexOf s (o :: os) = none →
    replLoop o os newString s = (s, 0) := by
  intro s
  induction s with
  | nil => intro _; simp [replLoop]
  | cons ch rest ih =>
    intro h
    unfold jsIndexOf at h
    by_cases hp : (o :: os).isPrefixOf (ch :: rest)
    · rw [if_pos hp] at h; simp at h
    · rw [if_neg hp] at h
      simp at h
      simp [replLoop, hp, ih h]

theorem replaceAllLit_absent (oldString newString s : List Char)
    (h : jsIndexOf s oldString = none) :
    replaceAllLit oldString newString s = (s, 0) := by
  cases oldString with
  | nil => rw [jsIndexOf_nil_pat] at h; simp at h
  | cons o os => exact replLoop_absent o os newString s h

/-- C10: for an existing readable file whose content does not contain
`oldString`, `editFile` is asymmetric in its two modes: with
`replaceAll = false` it throws `String not found` and performs no write,
while with `replaceAll = true` it succeeds, reports 0 replacements,
rewrites the file with the unchanged content, and emits change events
(the inner write's `update` and the edit's own `update`). -/
theorem editFile_absent_oldString (folders : List TrackedFolder) (path : String)
    (oldString newString : List Char) (fname : String) (sz lm : Nat)
    (content : List Char)
    (hres : getFileHandleTool folders path =
      .ok (some (.file fname sz lm (some content))))
    (hidx : jsIndexOf content oldString = none) :
    editFile folders path oldString newString false =
      .error ("String not found in file: \"" ++ String.mk oldString ++ "\"") ∧
    ∃ folders2,
      writeFile folders path content = .ok (folders2, .update) ∧
      editFile folders path oldString newString true =
        .ok (folders2, 0, [EvKind.update, EvKind.update]) := by
  constructor
  · simp [editFile, hres, hidx]
  · obtain ⟨folders2, hw⟩ :=
      writeFile_of_resolved folders path fname sz lm (some content) hres content
    refine ⟨folders2, hw, ?_⟩
    simp [editFile, hres, replaceAllLit_absent oldString newString content hidx, hw]

/-! ## C6: glob search -/

theorem lexCmpN_le_total : ∀ (x y : List Nat),
    lexCmpN x y ≤ 0 ∨ lexCmpN y x ≤ 0 := by
  intro x
  induction x with
  | nil => intro y; cases y <;> simp [lexCmpN]
  | cons a as ih =>
    intro y
    cases y with
    | nil => right; simp [lexCmpN]
    | cons b bs =>
      rcases Nat.lt_trichotomy a b with h | rfl | h
      · left; simp [lexCmpN, h]
      · simpa [lexCmpN, Nat.lt_irrefl] using ih bs
      · right; simp [lexCmpN, h]

theorem lexCmpN_le_trans : ∀ (x y z : List Nat), lexCmpN x y ≤ 0 →
    lexCmpN y z ≤ 0 → lexCmpN x z ≤ 0 := by
  intro x
  induction x with
  | nil => intro y z _ _; cases z <;> simp [lexCmpN]
  | cons a as ih =>
    intro y z h1 h2
    cases y with
    | nil => simp [lexCmpN] at h1
    | cons b bs =>
      cases z with
      | nil => simp [lexCmpN] at h2
      | cons c cs =>
        simp only [lexCmpN] at h1 h2 ⊢
        rcases Nat.lt_trichotomy a b with hab | rfl | hab
        · rcases Nat.lt_trichotomy b c with hbc | rfl | hbc
          · simp [Nat.lt_trans hab hbc]
          · simp [hab]
          · rw [if_neg (Nat.lt_asymm hbc), if_pos hbc] at h2
            omega
        · rw [if_neg (Nat.lt_irrefl a), if_neg (Nat.lt_irrefl a)] at h1
          rcases Nat.lt_trichotomy a c with hac | rfl | hac
          · simp [hac]
          · rw [if_neg (Nat.lt_irrefl a), if_neg (Nat.lt_irrefl a)] at h2
            simp only [Nat.lt_irrefl, if_neg (Nat.lt_irrefl a)]
            exact ih bs cs h1 h2
          · rw [if_neg (Nat.lt_asymm hac), if_pos hac] at h2
            omega
        · rw [if_neg (Nat.lt_asymm hab), if_pos hab] at h1
          omega

theorem sorted_sortStrings (l : List String) :
    List.Sorted lexLe (sortStrings l) := by
  haveI : IsTrans String lexLe := ⟨fun a b c => lexCmpN_le_trans _ _ _⟩
  haveI : IsTotal String lexLe := ⟨fun a b => lexCmpN_le_total _ _⟩
  exact List.sorted_insertionSort _ _

theorem string_append_assoc (a b c : String) : a ++ b ++ c = a ++ (b ++ c) := by
  apply String.ext
  simp [String.data_append, List.append_assoc]

theorem append_slash_ne_empty (a b : String) : a ++ "/" ++ b ≠ "" := by
  intro he
  have hd : (a ++ "/" ++ b).data = [] := by rw [he]
  simp [String.data_append] at hd

theorem relJoin_empty (r : String) : relJoin "" r = r := by simp [relJoin]

theorem relJoin_relJoin (relPath n : String) (hn : n ≠ "") (r : String) :
    relJoin (relJoin relPath n) r = relJoin relPath (n ++ "/" ++ r) := by
  unfold relJoin
  by_cases hrel : relPath = ""
  · simp [hrel, hn]
  · have hne : relPath ++ ("/" ++ n) ≠ "" := by
      rw [← string_append_assoc]
      exact append_slash_ne_empty relPath n
    simp [hrel, hne, string_append_assoc]

theorem scanList_eq (pattern : String) : ∀ (es : List Entry),
    listNamesOK es = true → ∀ (basePath relPath : String),
    scanList pattern es basePath relPath =
      (listRels es).filterMap (fun r =>
        if isMatch (relJoin relPath r) pattern then some (basePath ++ "/" ++ r)
        else none)
  | [], _, basePath, relPath => by simp [scanList, listRels]
  | Entry.file n sz lm c :: es2, h, basePath, relPath => by
    have h2 : listNamesOK es2 = true := by
      simp only [listNamesOK, Bool.and_eq_true] at h
      exact h.2
    simp only [scanList, scanEntry, listRels, entryRels, List.cons_append,
      List.nil_append, List.filterMap_cons]
    rw [scanList_eq pattern es2 h2 basePath relPath]
    by_cases hm : isMatch (relJoin relPath n) pattern = true <;> simp [hm]
  | Entry.dir n cs :: es2, h, basePath, relPath => by
    have h2 : listNamesOK es2 = true := by
      simp only [listNamesOK, Bool.and_eq_true] at h
      exact h.2
    have h3 : entryNamesOK (Entry.dir n cs) = true := by
      simp only [listNamesOK, Bool.and_eq_true] at h
      exact h.1
    simp only [entryNamesOK, Bool.and_eq_true, bne_iff_ne, ne_eq] at h3
    obtain ⟨hn, hcs⟩ := h3
    simp only [scanList, scanEntry, listRels, entryRels, List.filterMap_append,
      List.filterMap_map]
    rw [scanList_eq pattern cs hcs (basePath ++ "/" ++ n) (relJoin relPath n),
      scanList_eq pattern es2 h2 basePath relPath]
    congr 1
    have hfun : ((fun r =>
        if isMatch (relJoin relPath r) pattern then some (basePath ++ "/" ++ r)
        else none) ∘ (fun r => n ++ "/" ++ r)) = (fun r =>
          if isMatch (relJoin (relJoin relPath n) r) pattern
          then some (basePath ++ "/" ++ n ++ "/" ++ r) else none) := by
      funext r
      simp only [Function.comp_apply, relJoin_relJoin relPath n hn r,
        string_append_assoc]
    rw [hfun]
  termination_by es => sizeOf es

/-- C6: `globFiles` tests each file's path relative to its folder root
(folder-name prefix excluded) against the pattern and returns the
matching absolute virtual paths sorted ascending by string comparison; a
folder filter matching no tracked folder yields an empty list, not an
error; and on the spec's example — pattern `**/*.ts` over a folder
containing `a.ts`, `b/c.ts`, `b/d.txt` — it returns exactly
`["/folder/a.ts", "/folder/b/c.ts"]` in that order. -/
theorem globFiles_spec :
    (∀ folders pattern folderName,
      List.Sorted lexLe (globFiles folders pattern folderName)) ∧
    (∀ (f : TrackedFolder) (pattern p : String), listNamesOK f.entries = true →
      (p ∈ globFiles [f] pattern none ↔
        ∃ r ∈ listRels f.entries, isMatch r pattern = true ∧
          p = "/" ++ f.name ++ "/" ++ r)) ∧
    globFiles [globFolder] "**/*.ts" none =
      ["/folder/a.ts", "/folder/b/c.ts"] ∧
    globFiles [globFolder] "**/*.ts" (some "other") = [] := by
  refine ⟨?_, ?_, rfl, rfl⟩
  · intro folders pattern folderName
    simp only [globFiles]
    split
    · exact List.sorted_nil
    · exact sorted_sortStrings _
  · intro f pattern p hok
    have hglob : globFiles [f] pattern none =
        sortStrings (scanList pattern f.entries ("/" ++ f.name) "") := by
      simp [globFiles]
    rw [hglob, sortStrings, List.mem_insertionSort,
      scanList_eq pattern f.entries hok, List.mem_filterMap]
    constructor
    · rintro ⟨r, hr, hif⟩
      rw [relJoin_empty] at hif
      by_cases hm : isMatch r pattern = true
      · rw [if_pos hm] at hif
        exact ⟨r, hr, hm, by
          rw [← Option.some.inj hif, string_append_assoc]⟩
      · rw [if_neg hm] at hif
        exact absurd hif (by simp)
    · rintro ⟨r, hr, hm, rfl⟩
      refine ⟨r, hr, ?_⟩
      rw [relJoin_empty, if_pos hm, string_append_assoc]

theorem globFiles_spec_witness :
    "/folder/a.ts" ∈ globFiles [globFolder] "**/*.ts" none :=
  (globFiles_spec.2.1 globFolder "**/*.ts" "/folder/a.ts" (by decide)).mpr
    ⟨"a.ts", by decide, by decide, by decide⟩

theorem editFile_absent_oldString_witness :
    editFile editFolders "/f/a.txt" "xyz".data "bar".data false =
      .error ("String not found in file: \"" ++ String.mk "xyz".data ++ "\"") ∧
    ∃ folders2,
      writeFile editFolders "/f/a.txt" "foo foo".data = .ok (folders2, .update) ∧
      editFile editFolders "/f/a.txt" "xyz".data "bar".data true =
        .ok (folders2, 0, [EvKind.update, EvKind.update]) :=
  editFile_absent_oldString editFolders "/f/a.txt" "xyz".data "bar".data
    "a.txt" 7 0 "foo foo".data rfl (by decide)

/-! ## C2: write / read round trip -/

theorem find?_cons_pos2 {α : Type} (p : α → Bool) (a : α) (l : List α)
    (h : p a = true) : List.find? p (a :: l) = some a :=
  List.find?_cons_of_pos l h

theorem find?_cons_neg2 {α : Type} (p : α → Bool) (a : α) (l : List α)
    (h : p a = false) : List.find? p (a :: l) = List.find? p l :=
  List.find?_cons_of_neg l (by simp [h])

theorem lookupName_replaceFirst : ∀ {es : List Entry} {n : String}
    {e0 : Entry}, lookupName es n = some e0 → ∀ (e2 : Entry), e2.name = n →
    lookupName (replaceFirst es n e2) n = some e2 := by
  intro es
  induction es with
  | nil => intro n e0 h; simp [lookupName] at h
  | cons e rest ih =>
    intro n e0 h e2 hname
    by_cases he : e.name = n
    · have hb : (e.name == n) = true := beq_iff_eq.mpr he
      simp only [replaceFirst, hb, if_true]
      unfold lookupName
      exact find?_cons_pos2 (fun e => e.name == n) e2 rest
        (beq_iff_eq.mpr hname)
    · have hb : (e.name == n) = false := by simp [he]
      simp only [replaceFirst]
      rw [if_neg (by simp [hb])]
      unfold lookupName at h ⊢
      rw [find?_cons_neg2 (fun e => e.name == n) e rest hb] at h
      rw [find?_cons_neg2 (fun e => e.name == n) e (replaceFirst rest n e2) hb]
      exact ih h e2 hname

theorem lookupName_append : ∀ {es : List Entry} {n : String},
    lookupName es n = none → ∀ (e2 : Entry), e2.name = n →
    lookupName (es ++ [e2]) n = some e2 := by
  intro es
  induction es with
  | nil =>
    intro n _ e2 hname
    simp only [List.nil_append]
    unfold lookupName
    exact find?_cons_pos2 (fun e => e.name == n) e2 [] (beq_iff_eq.mpr hname)
  | cons e rest ih =>
    intro n h e2 hname
    by_cases he : e.name = n
    · exfalso
      unfold lookupName at h
      rw [find?_cons_pos2 (fun e => e.name == n) e rest
        (beq_iff_eq.mpr he)] at h
      exact Option.noConfusion h
    · have hb : (e.name == n) = false := by simp [he]
      unfold lookupName at h ⊢
      rw [find?_cons_neg2 (fun e => e.name == n) e rest hb] at h
      simp only [List.cons_append]
      rw [find?_cons_neg2 (fun e => e.name == n) e (rest ++ [e2]) hb]
      exact ih h e2 hname

theorem resolveFile_writeEntries : ∀ (segs : List String) (c : List Char)
    (es es2 : List Entry), writeEntries segs c es = .ok es2 →
    ∃ lm, resolveFile es2 segs =
      some (.file (segs.getLastD "") c.length lm (some c))
  | [], c, es, es2, h => by simp [writeEntries] at h
  | [f], c, es, es2, h => by
    simp only [writeEntries] at h
    split at h
    · rename_i m sz lm c0 heq
      simp only [Except.ok.injEq] at h
      subst h
      refine ⟨lm, ?_⟩
      simp only [resolveFile, getFileEntry]
      rw [lookupName_replaceFirst heq (Entry.file f c.length lm (some c)) rfl]
      simp [List.getLastD_cons]
    · simp at h
    · rename_i heq
      simp only [Except.ok.injEq] at h
      subst h
      refine ⟨0, ?_⟩
      simp only [resolveFile, getFileEntry]
      rw [lookupName_append heq (Entry.file f c.length 0 (some c)) rfl]
      simp [List.getLastD_cons]
  | s :: q :: rest2, c, es, es2, h => by
    simp only [writeEntries] at h
    rcases heq : lookupName es s with _ | e <;> rw [heq] at h
    · simp only [Except.map] at h
      rcases hw2 : writeEntries (q :: rest2) c [] with e2 | cs2 <;>
        rw [hw2] at h
      · simp at h
      · simp only [Except.ok.injEq] at h
        subst h
        obtain ⟨lm, hres⟩ := resolveFile_writeEntries (q :: rest2) c [] cs2 hw2
        refine ⟨lm, ?_⟩
        have hdir : getDirEntries (es ++ [Entry.dir s cs2]) s = some cs2 := by
          simp only [getDirEntries]
          rw [lookupName_append heq (Entry.dir s cs2) rfl]
        simp only [resolveFile, hdir, hres, List.getLastD_cons]
    · cases e with
      | file m2 sz lm2 c0 => simp at h
      | dir m cs =>
        simp only [Except.map] at h
        rcases hw2 : writeEntries (q :: rest2) c cs with e2 | cs2 <;>
          rw [hw2] at h
        · simp at h
        · simp only [Except.ok.injEq] at h
          subst h
          obtain ⟨lm, hres⟩ :=
            resolveFile_writeEntries (q :: rest2) c cs cs2 hw2
          refine ⟨lm, ?_⟩
          have hm : m = s := by
            have hp := List.find?_some heq
            simpa [Entry.name] using hp
          subst hm
          have hdir : getDirEntries (replaceFirst es m (.dir m cs2)) m =
              some cs2 := by
            simp only [getDirEntries]
            rw [lookupName_replaceFirst heq (Entry.dir m cs2)
              (show (Entry.dir m cs2).name = m from rfl)]
          simp only [resolveFile, hdir, hres, List.getLastD_cons]

theorem find_updateFolderEntries : ∀ {folders : List TrackedFolder}
    {fn : String} {f : TrackedFolder},
    folders.find? (fun g => g.name == fn) = some f → ∀ (es2 : List Entry),
    (updateFolderEntries folders fn es2).find? (fun g => g.name == fn) =
      some { f with entries := es2 } := by
  intro folders
  induction folders with
  | nil => intro fn f h; simp at h
  | cons g rest ih =>
    intro fn f h es2
    by_cases hg : (g.name == fn) = true
    · rw [find?_cons_pos2 (fun g => g.name == fn) g rest hg] at h
      simp only [Option.some.injEq] at h
      subst h
      simp only [updateFolderEntries, hg, if_true]
      exact find?_cons_pos2 (fun g => g.name == fn)
        { g with entries := es2 } rest hg
    · have hb : (g.name == fn) = false := by simp_all
      rw [find?_cons_neg2 (fun g => g.name == fn) g rest hb] at h
      simp only [updateFolderEntries]
      rw [if_neg (show ¬ ((g.name == fn) = true) by simp [hb])]
      rw [find?_cons_neg2 (fun g => g.name == fn) g
        (updateFolderEntries rest fn es2) hb]
      exact ih h es2

theorem truncLine_of_le {l : List Char} (h : l.length ≤ 2000) :
    truncLine l = l := by
  rw [truncLine, if_neg (by omega)]

theorem stripLines_formatLines : ∀ (ls : List (List Char)) (start : Nat),
    (∀ l ∈ ls, l.length ≤ 2000) →
    stripLines start (formatLines start ls) = ls := by
  intro ls
  induction ls with
  | nil => intro start _; rfl
  | cons l ls ih =>
    intro start h
    simp only [formatLines, stripLines]
    rw [ih (start + 1) (fun x hx => h x (List.mem_cons_of_mem _ hx))]
    congr 1
    rw [truncLine_of_le (h l (List.mem_cons_self _ _))]
    have he : padTo6 (decDigits (start + 1)) ++ '→' :: l =
        (padTo6 (decDigits (start + 1)) ++ ['→']) ++ l := by simp
    rw [he, show max 6 (decDigits (start + 1)).length + 1 =
      (padTo6 (decDigits (start + 1)) ++ ['→']).length by simp [padTo6_length],
      List.drop_left]

theorem formatLines_ne_nil {start : Nat} {ls : List (List Char)}
    (h : ls ≠ []) : formatLines start ls ≠ [] := by
  cases ls with
  | nil => exact absurd rfl h
  | cons l ls => simp [formatLines]

theorem formatLines_no_nl : ∀ (ls : List (List Char)) (start : Nat),
    (∀ l ∈ ls, '\n' ∉ l) → ∀ l2 ∈ formatLines start ls, '\n' ∉ l2 := by
  intro ls
  induction ls with
  | nil => intro start _ l2 h2; simp [formatLines] at h2
  | cons l ls ih =>
    intro start h l2 h2
    simp only [formatLines] at h2
    rw [List.mem_cons] at h2
    rcases h2 with h2 | h2
    · subst h2
      intro hmem
      rcases List.mem_append.mp hmem with hm | hm
      · unfold padTo6 at hm
        rcases List.mem_append.mp hm with hm2 | hm2
        · have := List.eq_of_mem_replicate hm2
          simp at this
        · have := decDigitsAux_isDigit _ _ _ hm2
          exact absurd this (by decide)
      · rw [List.mem_cons] at hm
        rcases hm with hm2 | hm2
        · simp at hm2
        · unfold truncLine at hm2
          have hl : '\n' ∉ l := h l (List.mem_cons_self _ _)
          split at hm2
          · rcases List.mem_append.mp hm2 with hm3 | hm3
            · exact hl (List.mem_of_mem_take hm3)
            · revert hm3; decide
          · exact hl hm2
    · exact ih (start + 1) (fun x hx => h x (List.mem_cons_of_mem _ hx)) l2 h2

/-- C2 (amended): writing `content` and reading it back returns `content`
formatted with the per-line numbering prefix, and stripping that prefix
recovers `content` exactly — provided the content fits the display
window: at most 2000 lines (the default `limit`) and no line longer than
2000 characters (the truncation threshold), and the file name does not
select the image/attachment path. -/
theorem write_read_roundtrip (folders folders2 : List TrackedFolder)
    (path : String) (content : List Char) (ev : EvKind)
    (hw : writeFile folders path content = .ok (folders2, ev))
    (hlines : (splitNl content).length ≤ 2000)
    (hlen : ∀ l ∈ splitNl content, l.length ≤ 2000)
    (himg : isImageName ((splitPath path).getLastD "") = false) :
    ∃ res, readFile folders2 path 0 2000 = .ok res ∧
      ∃ out, res.content = some out ∧ stripLineNumbering out = content := by
  unfold writeFile at hw
  split at hw
  · simp at hw
  · rename_i fn rest hp
    split at hw
    · simp at hw
    · rename_i f hf
      split at hw
      · simp at hw
      · rename_i es2 hwe
        simp only [Except.ok.injEq, Prod.mk.injEq] at hw
        obtain ⟨hf2, _⟩ := hw
        subst hf2
        obtain ⟨lm, hres⟩ :=
          resolveFile_writeEntries rest content f.entries es2 hwe
        have hsp : splitPath path = fn :: rest := by
          unfold parsePath at hp
          split at hp
          · simp at hp
          · rename_i fn2 rest2 heq
            simp only [Except.ok.injEq, Prod.mk.injEq] at hp
            rw [heq, hp.1, hp.2]
        have hne : rest ≠ [] := by
          intro hnil
          rw [hnil] at hwe
          simp [writeEntries] at hwe
        have himg2 : isImageName (rest.getLastD "") = false := by
          rw [hsp] at himg
          cases rest with
          | nil => exact absurd rfl hne
          | cons q rest2 => simpa [List.getLastD_cons] using himg
        have hfind := find_updateFolderEntries hf es2
        have hgf : getFileHandleTool (updateFolderEntries folders fn es2)
            path = .ok (resolveFile es2 rest) := by
          simp [getFileHandleTool, parsePath, hsp, hfind]
        refine ⟨⟨some (joinNl (formatLines 0 (splitNl content))), none,
          some (splitNl content).length⟩, ?_, _, rfl, ?_⟩
        · simp only [readFile, hgf, hres, himg2, Bool.false_eq_true,
            if_false, Nat.zero_add, List.drop_zero, Nat.sub_zero]
          rw [Nat.min_eq_left hlines, List.take_length]
        · unfold stripLineNumbering
          rw [splitNl_joinNl _ (formatLines_ne_nil (splitNl_ne_nil content))
            (formatLines_no_nl _ 0 (not_mem_splitNl content)),
            stripLines_formatLines _ 0 hlen]
          exact joinNl_splitNl content

theorem write_read_roundtrip_witness :
    ∃ res, readFile [⟨"id1", "f", [Entry.file "a.txt" 2 0 (some "hi".data)]⟩]
        "/f/a.txt" 0 2000 = .ok res ∧
      ∃ out, res.content = some out ∧ stripLineNumbering out = "hi".data :=
  write_read_roundtrip emptyFolders
    [⟨"id1", "f", [Entry.file "a.txt" 2 0 (some "hi".data)]⟩]
    "/f/a.txt" "hi".data .create rfl (by decide) (by decide) (by decide)

/-- Reading a file holding one newline-free line longer than the display
threshold returns that line truncated, marked and prefixed. -/
theorem readFile_single_long_line (folders : List TrackedFolder)
    (path fname : String) (sz lm : Nat) (l : List Char)
    (hhandle : getFileHandleTool folders path =
      .ok (some (.file fname sz lm (some l))))
    (himg : isImageName fname = false)
    (hnl : '\n' ∉ l) (hbig : 2000 < l.length) :
    readFile folders path 0 2000 = .ok
      ⟨some (padTo6 (decDigits 1) ++ '→' ::
        (l.take 2000 ++ "...[truncated]".data)), none, some 1⟩ := by
  have hsplit : splitNl l = [l] := splitNl_no_nl _ hnl
  have htrunc : truncLine l = l.take 2000 ++ "...[truncated]".data := by
    rw [truncLine, if_pos (by omega)]
  simp only [readFile, hhandle, himg, Bool.false_eq_true, if_false, hsplit,
    List.length_cons, List.length_nil, Nat.zero_add, List.drop_zero,
    Nat.sub_zero]
  rw [Nat.min_eq_left (by omega)]
  simp only [formatLines, htrunc, Nat.zero_add, joinNl, List.take_succ_cons,
    List.take_zero, List.take_nil, List.drop_zero]

/-- Stripping the numbering prefix from a single formatted line drops
exactly the pad and the arrow. -/
theorem strip_single_line (r : List Char) (hnl : '\n' ∉ r) :
    stripLineNumbering (padTo6 (decDigits 1) ++ '→' :: r) = r := by
  have hno : '\n' ∉ padTo6 (decDigits 1) ++ '→' :: r := by
    intro hm
    rcases List.mem_append.mp hm with hm2 | hm2
    · unfold padTo6 at hm2
      rcases List.mem_append.mp hm2 with hm3 | hm3
      · have := List.eq_of_mem_replicate hm3
        simp at this
      · have := decDigitsAux_isDigit _ _ _ hm3
        exact absurd this (by decide)
    · rw [List.mem_cons] at hm2
      rcases hm2 with hm3 | hm3
      · simp at hm3
      · exact hnl hm3
  unfold stripLineNumbering
  rw [splitNl_no_nl _ hno]
  simp only [stripLines]
  rw [show padTo6 (decDigits 1) ++ '→' :: r =
      (padTo6 (decDigits 1) ++ ['→']) ++ r by simp]
  rw [show max 6 (decDigits (0 + 1)).length + 1 =
      (padTo6 (decDigits 1) ++ ['→']).length from rfl]
  rw [List.drop_left]
  rfl

/-- C2 counterexample: the round trip is not reversible for every
content — a single 2001-character line is truncated for display, and
stripping the numbering prefix yields the truncated line plus the
truncation marker, not the original content. -/
theorem write_read_truncation_counterexample :
    longLineRoundTrip.isSome = true ∧ longLineRoundTrip ≠ some longLine := by
  have hnl : '\n' ∉ longLine := by
    intro hm
    unfold longLine at hm
    have := List.eq_of_mem_replicate hm
    exact absurd this (by decide)
  have hlen : longLine.length = 2001 := by
    unfold longLine
    rw [List.length_replicate]
  have hw : writeFile emptyFolders "/f/big.txt" longLine =
      .ok ([⟨"id1", "f",
        [Entry.file "big.txt" longLine.length 0 (some longLine)]⟩],
        .create) := rfl
  have hhandle : getFileHandleTool
      [⟨"id1", "f", [Entry.file "big.txt" longLine.length 0 (some longLine)]⟩]
      "/f/big.txt" =
      .ok (some (.file "big.txt" longLine.length 0 (some longLine))) := rfl
  have hread := readFile_single_long_line _ _ _ _ _ _ hhandle rfl hnl
    (by omega)
  have hstrip := strip_single_line (longLine.take 2000 ++ "...[truncated]".data)
    (by
      intro hm
      rcases List.mem_append.mp hm with hm2 | hm2
      · exact hnl (List.mem_of_mem_take hm2)
      · revert hm2; decide)
  have hrt : longLineRoundTrip =
      some (longLine.take 2000 ++ "...[truncated]".data) := by
    unfold longLineRoundTrip
    rw [hw]
    simp only [Except.toOption, Option.some_bind]
    rw [hread]
    simp only [Option.some_bind, Option.map_some']
    rw [hstrip]
  constructor
  · rw [hrt]; rfl
  · rw [hrt]
    intro h
    have h2 := Option.some.inj h
    have h3 := congrArg List.length h2
    rw [List.length_append, List.length_take, hlen] at h3
    have h4 : ("...[truncated]".data).length = 14 := rfl
    omega

end NoteTaker
